import Mathlib

/-!
Verification of the temporal lineage-graph traversal engine of
`src/backend/lens-io/src/lens/lineage/repository.py` (class `LineageRepository`)
against its natural-language specification.

Shallow embedding conventions:
* UUIDs are modelled as `Nat`; timestamps (`datetime`) as `Nat` ticks, with
  `none` for SQL `NULL`.
* The database tables `lineage_nodes` / `lineage_edges` are lists of records
  (a `Store`); row order is the deterministic stand-in for the unspecified
  SQL result order.
* The recursive CTE of `_traverse_graph` is modelled level by level: the
  working table of each iteration feeds the next, exactly as SQL evaluates a
  recursive `UNION ALL` CTE; a fuel bound of `depth.toNat` is shown (in
  `cteAccum_fixed`) to reach the CTE's fixed point.
* `pydantic` validation of `LineageQueryParams` (raised in Python when the
  response object is constructed) is modelled with `Except`.
-/

namespace ProjectLens

/-- A row of `lineage_edges` (models.py `LineageEdge`): endpoints, type,
free-form metadata (opaque here), the temporal validity interval
`[valid_from, valid_to)` with `valid_to = none` meaning "still active",
and the audit fields. -/
structure LineageEdge where
  id : Nat
  source_id : Nat
  target_id : Nat
  edge_type : String
  metadata : String
  valid_from : Nat
  valid_to : Option Nat
  created_at : Nat
  created_by : Option String
  deriving DecidableEq

/-- A row of `lineage_nodes` (models.py `LineageNode`), restricted to the
fields the traversal engine reads or returns; `deleted_at` is the
soft-delete marker. -/
structure LineageNode where
  id : Nat
  type : String
  name : String
  qualified_name : Option String
  classification : Option String
  attributes : String
  deleted_at : Option Nat
  deriving DecidableEq

/-- The graph store: the two tables the traversal engine touches. -/
structure Store where
  nodes : List LineageNode
  edges : List LineageEdge
  deriving DecidableEq

/-- Modelled from the spec, section 4.1 (the refinement target for the code's
inline SQL conditions): `is_active(edge, as_of)` is true iff
`edge.valid_from <= as_of` and (`edge.valid_to` is absent or
`edge.valid_to > as_of`). -/
def is_active (e : LineageEdge) (as_of : Nat) : Bool :=
  decide (e.valid_from ≤ as_of) &&
    (match e.valid_to with
     | none => true
     | some t => decide (t > as_of))

/-- The optional edge-type filter (repository.py lines 380-382):
`if edge_types:` is Python truthiness, so both `None` and an empty list mean
"no filter"; a nonempty list becomes `edge_type.in_(edge_types)`. -/
def edgeTypeCond (edge_types : Option (List String)) (e : LineageEdge) : Bool :=
  match edge_types with
  | none => true
  | some ts => if ts.isEmpty then true else ts.contains e.edge_type

/-- A row of the recursive CTE `lineage_graph`: the columns selected at
repository.py lines 388-396 / 409-417 (and the downstream twins):
`node_id` is the frontier node (the far end of the edge in the traversal
direction), plus the projected edge columns and the hop depth. -/
structure CteRow where
  node_id : Nat
  edge_id : Nat
  source_id : Nat
  target_id : Nat
  edge_type : String
  metadata : String
  depth : Nat
  deriving DecidableEq

/-- Base case of the upstream CTE (repository.py lines 387-406): edges whose
`target_id` equals the seed, filtered by the inline temporal condition
`valid_from <= timestamp AND (valid_to IS NULL OR valid_to > timestamp)`
and the edge-type filter; `node_id` is the edge's `source_id`, depth 1. -/
def upstreamBase (edges : List LineageEdge) (node_id : Nat) (timestamp : Nat)
    (edge_types : Option (List String)) : List CteRow :=
  (edges.filter (fun e =>
      e.target_id == node_id &&
      decide (e.valid_from ≤ timestamp) &&
      (e.valid_to.isNone ||
        (match e.valid_to with
         | none => false
         | some t => decide (t > timestamp))) &&
      edgeTypeCond edge_types e)).map
    (fun e =>
      { node_id := e.source_id, edge_id := e.id, source_id := e.source_id,
        target_id := e.target_id, edge_type := e.edge_type,
        metadata := e.metadata, depth := 1 })

/-- Recursive step of the upstream CTE (repository.py lines 408-428): join
edges against the previous iteration's rows on
`LineageEdge.target_id = cte.node_id`, keep rows with `cte.depth < depth`
and the same inline temporal and type conditions; depth increments. -/
def upstreamStep (edges : List LineageEdge) (depth : Int) (timestamp : Nat)
    (edge_types : Option (List String)) (prev : List CteRow) : List CteRow :=
  prev.flatMap (fun r =>
    if (r.depth : Int) < depth then
      (edges.filter (fun e =>
          e.target_id == r.node_id &&
          decide (e.valid_from ≤ timestamp) &&
          (e.valid_to.isNone ||
            (match e.valid_to with
             | none => false
             | some t => decide (t > timestamp))) &&
          edgeTypeCond edge_types e)).map
        (fun e =>
          { node_id := e.source_id, edge_id := e.id, source_id := e.source_id,
            target_id := e.target_id, edge_type := e.edge_type,
            metadata := e.metadata, depth := r.depth + 1 })
    else [])

/-- Base case of the downstream CTE (repository.py lines 432-451): edges
whose `source_id` equals the seed; `node_id` is the edge's `target_id`. -/
def downstreamBase (edges : List LineageEdge) (node_id : Nat) (timestamp : Nat)
    (edge_types : Option (List String)) : List CteRow :=
  (edges.filter (fun e =>
      e.source_id == node_id &&
      decide (e.valid_from ≤ timestamp) &&
      (e.valid_to.isNone ||
        (match e.valid_to with
         | none => false
         | some t => decide (t > timestamp))) &&
      edgeTypeCond edge_types e)).map
    (fun e =>
      { node_id := e.target_id, edge_id := e.id, source_id := e.source_id,
        target_id := e.target_id, edge_type := e.edge_type,
        metadata := e.metadata, depth := 1 })

/-- Recursive step of the downstream CTE (repository.py lines 453-473):
join on `LineageEdge.source_id = cte.node_id`. -/
def downstreamStep (edges : List LineageEdge) (depth : Int) (timestamp : Nat)
    (edge_types : Option (List String)) (prev : List CteRow) : List CteRow :=
  prev.flatMap (fun r =>
    if (r.depth : Int) < depth then
      (edges.filter (fun e =>
          e.source_id == r.node_id &&
          decide (e.valid_from ≤ timestamp) &&
          (e.valid_to.isNone ||
            (match e.valid_to with
             | none => false
             | some t => decide (t > timestamp))) &&
          edgeTypeCond edge_types e)).map
        (fun e =>
          { node_id := e.target_id, edge_id := e.id, source_id := e.source_id,
            target_id := e.target_id, edge_type := e.edge_type,
            metadata := e.metadata, depth := r.depth + 1 })
    else [])

/-- Level-by-level evaluation of a recursive `UNION ALL` CTE: `cur` is the
working table of the current iteration, `fuel` the number of further
iterations; the result is the union of all iterations' rows. -/
def cteAccum (step : List CteRow → List CteRow) : List CteRow → Nat → List CteRow
  | cur, 0 => cur
  | cur, Nat.succ n => cur ++ cteAccum step (step cur) n

/-- The rows of the recursive CTE for one direction after `fuel` further
iterations beyond the base case. -/
def cteRowsFuel (edges : List LineageEdge) (node_id : Nat) (isUpstream : Bool)
    (depth : Int) (timestamp : Nat) (edge_types : Option (List String))
    (fuel : Nat) : List CteRow :=
  if isUpstream then
    cteAccum (upstreamStep edges depth timestamp edge_types)
      (upstreamBase edges node_id timestamp edge_types) fuel
  else
    cteAccum (downstreamStep edges depth timestamp edge_types)
      (downstreamBase edges node_id timestamp edge_types) fuel

/-- All rows of the recursive CTE `lineage_graph` for one direction
(repository.py line 500, `cte_base.union_all(cte_recursive)`), evaluated with
fuel `depth.toNat`, which `cteRowsFuel_fixed` shows reaches the fixed point
the SQL engine iterates to. -/
def cteRows (edges : List LineageEdge) (node_id : Nat) (isUpstream : Bool)
    (depth : Int) (timestamp : Nat) (edge_types : Option (List String)) :
    List CteRow :=
  cteRowsFuel edges node_id isUpstream depth timestamp edge_types depth.toNat

/-- A node of the response (schemas.py `LineageGraphNode`). -/
structure LineageGraphNode where
  id : Nat
  type : String
  name : String
  qualified_name : Option String
  classification : Option String
  attributes : String
  depth : Nat
  deriving DecidableEq

/-- An edge of the response (schemas.py `LineageGraphEdge`). -/
structure LineageGraphEdge where
  id : Nat
  source_id : Nat
  target_id : Nat
  edge_type : String
  metadata : String
  deriving DecidableEq

/-- The query echo of the response (schemas.py `LineageQueryParams`),
restricted to the fields `_traverse_graph` fills in. -/
structure LineageQueryParams where
  dataset_id : Option Nat
  direction : String
  depth : Int
  as_of : Option Nat
  edge_types : Option (List String)
  deriving DecidableEq

/-- The response of a traversal (schemas.py `LineageGraphResponse`). -/
structure LineageGraphResponse where
  query : LineageQueryParams
  nodes : List LineageGraphNode
  edges : List LineageGraphEdge
  node_count : Nat
  edge_count : Nat
  deriving DecidableEq

/-- The one failure `_traverse_graph` can raise: the `pydantic`
`ValidationError` thrown when `LineageQueryParams` is constructed with a
field outside its declared constraints. -/
inductive TraverseError where
  | validation_error
  deriving DecidableEq

/-- Construction of `LineageQueryParams` (schemas.py lines 171-180):
`direction` must match `^(upstream|downstream|both)$` and `depth` carries
`ge=1, le=10`; any violation raises a `ValidationError`. -/
def mkLineageQueryParams (dataset_id : Option Nat) (direction : String)
    (depth : Int) (as_of : Option Nat) (edge_types : Option (List String)) :
    Except TraverseError LineageQueryParams :=
  if (direction == "upstream" || direction == "downstream" ||
        direction == "both") && decide (1 ≤ depth) && decide (depth ≤ 10) then
    .ok { dataset_id := dataset_id, direction := direction, depth := depth,
          as_of := as_of, edge_types := edge_types }
  else
    .error .validation_error

/-- Projection of a CTE row to the five distinct edge columns selected at
repository.py line 503, shaped as the response edge. -/
def rowToGraphEdge (r : CteRow) : LineageGraphEdge :=
  { id := r.edge_id, source_id := r.source_id, target_id := r.target_id,
    edge_type := r.edge_type, metadata := r.metadata }

/-- Hydration of a store node into a response node (repository.py lines
523-534). The recorded depth is the literal `depth=0` of line 531 (the
code's `TODO: Add depth from CTE`). -/
def toGraphNode (n : LineageNode) : LineageGraphNode :=
  { id := n.id, type := n.type, name := n.name,
    qualified_name := n.qualified_name, classification := n.classification,
    attributes := n.attributes, depth := 0 }

/-- The local `edges_data` of `_traverse_graph` (repository.py lines
503-505): the distinct `(edge_id, source_id, target_id, edge_type, metadata)`
rows of the CTE. SQL `DISTINCT` leaves the order unspecified; `List.dedup`
is the deterministic stand-in. -/
def edgesData (edges : List LineageEdge) (node_id : Nat) (isUpstream : Bool)
    (depth : Int) (timestamp : Nat) (edge_types : Option (List String)) :
    List LineageGraphEdge :=
  ((cteRows edges node_id isUpstream depth timestamp edge_types).map
    rowToGraphEdge).dedup

/-- The local `node_ids` of `_traverse_graph` (repository.py lines 507-511):
the starting node plus both endpoints of every distinct edge row; only
membership in it is ever used. -/
def nodeIds (node_id : Nat) (edges_data : List LineageGraphEdge) : List Nat :=
  node_id :: edges_data.flatMap (fun e => [e.source_id, e.target_id])

/-- The node hydration query of `_traverse_graph` (repository.py lines
513-520): nodes whose id is in `node_ids`, excluding soft-deleted ones
unless `include_deleted`. -/
def hydratedNodes (nodes : List LineageNode) (node_ids : List Nat)
    (include_deleted : Bool) : List LineageNode :=
  nodes.filter (fun n =>
    node_ids.contains n.id && (include_deleted || n.deleted_at.isNone))

/-- `_traverse_graph` for `direction` = `"upstream"` (isUpstream) or
`"downstream"`: evaluate the recursive CTE, select the distinct edge rows,
collect the seed plus all edge endpoints, hydrate those nodes (dropping
soft-deleted ones unless `include_deleted`), and build the response
(repository.py lines 499-559). `now` stands for `datetime.utcnow()`, used
when `as_of` is unset (line 377). -/
def traverseDir (st : Store) (node_id : Nat) (isUpstream : Bool) (depth : Int)
    (as_of : Option Nat) (now : Nat) (edge_types : Option (List String))
    (include_deleted : Bool) : Except TraverseError LineageGraphResponse :=
  let timestamp := as_of.getD now
  let edges_data := edgesData st.edges node_id isUpstream depth timestamp edge_types
  let graph_nodes :=
    (hydratedNodes st.nodes (nodeIds node_id edges_data) include_deleted).map
      toGraphNode
  match mkLineageQueryParams (some node_id)
      (if isUpstream then "upstream" else "downstream") depth as_of edge_types with
  | .error err => .error err
  | .ok q =>
      .ok { query := q, nodes := graph_nodes, edges := edges_data,
            node_count := graph_nodes.length, edge_count := edges_data.length }

/-- One step of the Python dict comprehension `{x.key: x for x in l}`:
a later element with an already-present key overwrites the stored value in
place; a fresh key is appended. -/
def dictInsert {α : Type} (key : α → Nat) (acc : List α) (x : α) : List α :=
  if acc.any (fun y => key y == key x) then
    acc.map (fun y => if key y == key x then x else y)
  else
    acc ++ [x]

/-- `list({x.key: x for x in l}.values())`: insertion order of first key
occurrence, value of the last occurrence (Python dict semantics, used for
the `both`-direction merge at repository.py lines 482-483). -/
def dictValues {α : Type} (key : α → Nat) (l : List α) : List α :=
  l.foldl (dictInsert key) []

/-- `_traverse_graph` (repository.py lines 354-559): dispatch on the
`direction` string; anything other than `"upstream"` and `"downstream"`
falls into the `else` branch (line 475), which runs the two one-direction
traversals and merges them by id. -/
def traverse_graph (st : Store) (node_id : Nat) (direction : String)
    (depth : Int) (as_of : Option Nat) (now : Nat)
    (edge_types : Option (List String)) (include_deleted : Bool) :
    Except TraverseError LineageGraphResponse :=
  if direction == "upstream" then
    traverseDir st node_id true depth as_of now edge_types include_deleted
  else if direction == "downstream" then
    traverseDir st node_id false depth as_of now edge_types include_deleted
  else
    match traverseDir st node_id true depth as_of now edge_types include_deleted with
    | .error e => .error e
    | .ok upstream =>
      match traverseDir st node_id false depth as_of now edge_types include_deleted with
      | .error e => .error e
      | .ok downstream =>
        let all_nodes := dictValues (fun n => n.id) (upstream.nodes ++ downstream.nodes)
        let all_edges := dictValues (fun e => e.id) (upstream.edges ++ downstream.edges)
        match mkLineageQueryParams (some node_id) "both" depth as_of edge_types with
        | .error e => .error e
        | .ok q =>
            .ok { query := q, nodes := all_nodes, edges := all_edges,
                  node_count := all_nodes.length, edge_count := all_edges.length }

/-- `get_edge` (repository.py lines 152-163): the edge with the given
primary key, if any. -/
def get_edge (st : Store) (edge_id : Nat) : Option LineageEdge :=
  st.edges.find? (fun e => e.id == edge_id)

/-- `invalidate_edge` (repository.py lines 165-181): fetch the edge by id;
if absent return `False` and leave the store unchanged, otherwise set its
`valid_to` to the given timestamp (`valid_to or datetime.utcnow()`) and
return `True`. The update addresses the row by its primary key. -/
def invalidate_edge (st : Store) (edge_id : Nat) (valid_to : Option Nat)
    (now : Nat) : Store × Bool :=
  match get_edge st edge_id with
  | none => (st, false)
  | some _ =>
      ({ st with
          edges := st.edges.map (fun e =>
            if e.id == edge_id then { e with valid_to := some (valid_to.getD now) }
            else e) },
        true)

/-- `create_edge` (repository.py lines 137-150): insert a new edge row. -/
def create_edge (st : Store) (e : LineageEdge) : Store :=
  { st with edges := st.edges ++ [e] }

/-- `ReachWithin edges isUpstream ts ets seed k v`: node `v` is reachable
from `seed` by at most `k` hops, each hop crossing an edge of the store that
satisfies the temporal predicate at `ts` and the edge-type filter, walked
against the edge direction (upstream: target to source) or along it
(downstream: source to target). -/
inductive ReachWithin (edges : List LineageEdge) (isUpstream : Bool)
    (ts : Nat) (ets : Option (List String)) (seed : Nat) : Nat → Nat → Prop where
  | seed_self (k : Nat) : ReachWithin edges isUpstream ts ets seed k seed
  | step (k : Nat) (u : Nat) (e : LineageEdge) :
      ReachWithin edges isUpstream ts ets seed k u →
      e ∈ edges → is_active e ts = true → edgeTypeCond ets e = true →
      (if isUpstream then e.target_id else e.source_id) = u →
      ReachWithin edges isUpstream ts ets seed (k + 1)
        (if isUpstream then e.source_id else e.target_id)

/-- Concrete fixture node. -/
def exNode (i : Nat) : LineageNode :=
  { id := i, type := "fact_table", name := "n", qualified_name := none,
    classification := none, attributes := "", deleted_at := none }

/-- Concrete fixture edge, active from time 0 and never closed. -/
def exEdge (i s t : Nat) : LineageEdge :=
  { id := i, source_id := s, target_id := t, edge_type := "feeds",
    metadata := "", valid_from := 0, valid_to := none, created_at := 0,
    created_by := none }

/-- Nodes 1 and 2 with an edge from node 2 into node 1. -/
def exStore : Store :=
  { nodes := [exNode 1, exNode 2], edges := [exEdge 10 2 1] }

/-- A single node carrying a self-loop. -/
def loopStore : Store :=
  { nodes := [exNode 1], edges := [exEdge 10 1 1] }

/-- Node 1 is soft-deleted at time 3; node 2 feeds it. -/
def deletedSeedStore : Store :=
  { nodes := [{ exNode 1 with deleted_at := some 3 }, exNode 2],
    edges := [exEdge 10 2 1] }

/-- Placeholder response used only to name the payload of a traversal known
to succeed. -/
def emptyResponse : LineageGraphResponse :=
  { query := { dataset_id := none, direction := "", depth := 0, as_of := none,
               edge_types := none },
    nodes := [], edges := [], node_count := 0, edge_count := 0 }

/-- The payload of a successful traversal. -/
def okOr (x : Except TraverseError LineageGraphResponse)
    (dflt : LineageGraphResponse) : LineageGraphResponse :=
  match x with
  | .ok r => r
  | .error _ => dflt


/-- The inline SQL temporal condition equals the spec's temporal predicate. -/
theorem temporal_cond_is_active (e : LineageEdge) (ts : Nat) :
    (decide (e.valid_from ≤ ts) &&
      (e.valid_to.isNone ||
        (match e.valid_to with
         | none => false
         | some t => decide (t > ts)))) = is_active e ts := by
  cases h : e.valid_to <;> simp [is_active, h]

/-- `mkLineageQueryParams` succeeds exactly on a well-formed direction and a
depth in `[1, 10]`. -/
theorem mkLineageQueryParams_ok (dataset_id : Option Nat) (direction : String)
    (depth : Int) (as_of : Option Nat) (edge_types : Option (List String))
    (hdir : direction = "upstream" ∨ direction = "downstream" ∨ direction = "both")
    (h1 : 1 ≤ depth) (h2 : depth ≤ 10) :
    mkLineageQueryParams dataset_id direction depth as_of edge_types =
      .ok { dataset_id := dataset_id, direction := direction, depth := depth,
            as_of := as_of, edge_types := edge_types } := by
  rcases hdir with h | h | h <;> subst h <;> simp [mkLineageQueryParams, h1, h2]

theorem mkLineageQueryParams_bad_depth (dataset_id : Option Nat)
    (direction : String) (depth : Int) (as_of : Option Nat)
    (edge_types : Option (List String)) (h : depth < 1 ∨ 10 < depth) :
    mkLineageQueryParams dataset_id direction depth as_of edge_types =
      .error .validation_error := by
  have h1 : ¬ (1 ≤ depth ∧ depth ≤ 10) := by omega
  rcases h with h | h <;>
    simp [mkLineageQueryParams] <;> intros <;> omega

/-- Closed form of `traverseDir` on a valid depth. -/
theorem traverseDir_ok (st : Store) (node_id : Nat) (isUpstream : Bool)
    (depth : Int) (as_of : Option Nat) (now : Nat)
    (edge_types : Option (List String)) (include_deleted : Bool)
    (h1 : 1 ≤ depth) (h2 : depth ≤ 10) :
    traverseDir st node_id isUpstream depth as_of now edge_types include_deleted =
      .ok { query := { dataset_id := some node_id,
                       direction := if isUpstream then "upstream" else "downstream",
                       depth := depth, as_of := as_of, edge_types := edge_types },
            nodes := (hydratedNodes st.nodes
                (nodeIds node_id (edgesData st.edges node_id isUpstream depth
                  (as_of.getD now) edge_types)) include_deleted).map toGraphNode,
            edges := edgesData st.edges node_id isUpstream depth (as_of.getD now)
              edge_types,
            node_count := ((hydratedNodes st.nodes
                (nodeIds node_id (edgesData st.edges node_id isUpstream depth
                  (as_of.getD now) edge_types)) include_deleted).map toGraphNode).length,
            edge_count := (edgesData st.edges node_id isUpstream depth
              (as_of.getD now) edge_types).length } := by
  have hq := mkLineageQueryParams_ok (some node_id)
    (if isUpstream then "upstream" else "downstream") depth as_of edge_types
    (by cases isUpstream <;> simp) h1 h2
  simp only [traverseDir, hq]

/-- `traverseDir` fails (with the pydantic validation error raised at
response construction) exactly when the depth is out of range. -/
theorem traverseDir_bad_depth (st : Store) (node_id : Nat) (isUpstream : Bool)
    (depth : Int) (as_of : Option Nat) (now : Nat)
    (edge_types : Option (List String)) (include_deleted : Bool)
    (h : depth < 1 ∨ 10 < depth) :
    traverseDir st node_id isUpstream depth as_of now edge_types include_deleted =
      .error .validation_error := by
  have hq := mkLineageQueryParams_bad_depth (some node_id)
    (if isUpstream then "upstream" else "downstream") depth as_of edge_types h
  simp only [traverseDir, hq]

theorem traverse_graph_upstream (st : Store) (node_id : Nat) (depth : Int)
    (as_of : Option Nat) (now : Nat) (edge_types : Option (List String))
    (include_deleted : Bool) :
    traverse_graph st node_id "upstream" depth as_of now edge_types include_deleted =
      traverseDir st node_id true depth as_of now edge_types include_deleted := rfl

theorem traverse_graph_downstream (st : Store) (node_id : Nat) (depth : Int)
    (as_of : Option Nat) (now : Nat) (edge_types : Option (List String))
    (include_deleted : Bool) :
    traverse_graph st node_id "downstream" depth as_of now edge_types include_deleted =
      traverseDir st node_id false depth as_of now edge_types include_deleted := rfl


/-- Any direction other than the two literals falls into the `else` branch
of `_traverse_graph` (repository.py line 475). -/
theorem traverse_graph_else (st : Store) (node_id : Nat) (direction : String)
    (depth : Int) (as_of : Option Nat) (now : Nat)
    (edge_types : Option (List String)) (include_deleted : Bool)
    (hu : direction ≠ "upstream") (hd : direction ≠ "downstream") :
    traverse_graph st node_id direction depth as_of now edge_types include_deleted =
      traverse_graph st node_id "both" depth as_of now edge_types include_deleted := by
  have hu' : (direction == "upstream") = false := beq_eq_false_iff_ne.mpr hu
  have hd' : (direction == "downstream") = false := beq_eq_false_iff_ne.mpr hd
  simp only [traverse_graph, hu', hd']
  rfl

/-- The merged `both` response on a valid depth, in closed form. -/
theorem traverse_graph_both_ok (st : Store) (node_id : Nat) (depth : Int)
    (as_of : Option Nat) (now : Nat) (edge_types : Option (List String))
    (include_deleted : Bool) (ru rd : LineageGraphResponse)
    (hu : traverseDir st node_id true depth as_of now edge_types include_deleted = .ok ru)
    (hd : traverseDir st node_id false depth as_of now edge_types include_deleted = .ok rd)
    (h1 : 1 ≤ depth) (h2 : depth ≤ 10) :
    traverse_graph st node_id "both" depth as_of now edge_types include_deleted =
      .ok { query := { dataset_id := some node_id, direction := "both",
                       depth := depth, as_of := as_of, edge_types := edge_types },
            nodes := dictValues (fun n => n.id) (ru.nodes ++ rd.nodes),
            edges := dictValues (fun e => e.id) (ru.edges ++ rd.edges),
            node_count := (dictValues (fun n => n.id) (ru.nodes ++ rd.nodes)).length,
            edge_count := (dictValues (fun e => e.id) (ru.edges ++ rd.edges)).length } := by
  have hq := mkLineageQueryParams_ok (some node_id) "both" depth as_of edge_types
    (by simp) h1 h2
  simp only [traverse_graph, show (("both" : String) == "upstream") = false from rfl,
    show (("both" : String) == "downstream") = false from rfl, Bool.false_eq_true,
    if_false, hu, hd, hq]


section DictLemmas

variable {α : Type} (key : α → Nat)

theorem dictInsert_mem {acc : List α} {x z : α}
    (h : z ∈ dictInsert key acc x) : z ∈ acc ∨ z = x := by
  unfold dictInsert at h
  by_cases hc : acc.any (fun y => key y == key x) = true
  · rw [if_pos hc] at h
    obtain ⟨y, hy, hz⟩ := List.mem_map.mp h
    by_cases hk : (key y == key x) = true
    · rw [if_pos hk] at hz; right; exact hz.symm
    · rw [if_neg hk] at hz; left; exact hz ▸ hy
  · rw [if_neg hc] at h
    rcases List.mem_append.mp h with h1 | h1
    · exact Or.inl h1
    · exact Or.inr (List.mem_singleton.mp h1)

theorem dictInsert_eq_of_key {acc : List α} {x z : α}
    (h : z ∈ dictInsert key acc x) (hk : key z = key x) : z = x := by
  unfold dictInsert at h
  by_cases hc : acc.any (fun y => key y == key x) = true
  · rw [if_pos hc] at h
    obtain ⟨y, hy, hz⟩ := List.mem_map.mp h
    by_cases hky : (key y == key x) = true
    · rw [if_pos hky] at hz; exact hz.symm
    · rw [if_neg hky] at hz
      exact absurd (beq_iff_eq.mpr (hz ▸ hk)) hky
  · rw [if_neg hc] at h
    rcases List.mem_append.mp h with h1 | h1
    · have hz : acc.any (fun y => key y == key x) = true :=
        List.any_eq_true.mpr ⟨z, h1, beq_iff_eq.mpr hk⟩
      exact absurd hz hc
    · exact List.mem_singleton.mp h1

theorem dictInsert_exists_key {acc : List α} {x : α} {k : Nat}
    (h : (∃ y ∈ acc, key y = k) ∨ key x = k) :
    ∃ z ∈ dictInsert key acc x, key z = k := by
  unfold dictInsert
  by_cases hc : acc.any (fun y => key y == key x) = true
  · rw [if_pos hc]
    rcases h with ⟨y, hy, hky⟩ | hx
    · by_cases hky' : (key y == key x) = true
      · refine ⟨x, List.mem_map.mpr ⟨y, hy, by rw [if_pos hky']⟩, ?_⟩
        rw [← beq_iff_eq.mp hky', hky]
      · exact ⟨y, List.mem_map.mpr ⟨y, hy, by rw [if_neg hky']⟩, hky⟩
    · obtain ⟨y, hy, hky⟩ := List.any_eq_true.mp hc
      refine ⟨x, List.mem_map.mpr ⟨y, hy, by rw [if_pos hky]⟩, hx⟩
  · rw [if_neg hc]
    rcases h with ⟨y, hy, hky⟩ | hx
    · exact ⟨y, List.mem_append.mpr (Or.inl hy), hky⟩
    · exact ⟨x, List.mem_append.mpr (Or.inr (List.mem_singleton.mpr rfl)), hx⟩

/-- The keys of `dictInsert`: unchanged when the key was present, the new
key appended when it was not. -/
theorem dictInsert_map_key (acc : List α) (x : α) :
    (dictInsert key acc x).map key =
      if acc.any (fun y => key y == key x) then acc.map key
      else acc.map key ++ [key x] := by
  unfold dictInsert
  by_cases hc : acc.any (fun y => key y == key x) = true
  · rw [if_pos hc, if_pos hc, List.map_map]
    refine List.map_congr_left ?_
    intro y _
    by_cases hky : (key y == key x) = true
    · simp only [Function.comp_apply, if_pos hky]
      exact (beq_iff_eq.mp hky).symm
    · simp only [Function.comp_apply, if_neg hky]
  · rw [if_neg hc, if_neg hc, List.map_append]
    rfl

theorem dictFold_mem :
    ∀ (l acc : List α) (z : α), z ∈ l.foldl (dictInsert key) acc →
      z ∈ acc ∨ z ∈ l := by
  intro l
  induction l with
  | nil => intro acc z h; exact Or.inl h
  | cons x l ih =>
    intro acc z h
    rcases ih (dictInsert key acc x) z h with h1 | h1
    · rcases dictInsert_mem key h1 with h2 | h2
      · exact Or.inl h2
      · exact Or.inr (h2 ▸ List.mem_cons_self x l)
    · exact Or.inr (List.mem_cons_of_mem x h1)

theorem dictValues_mem {l : List α} {z : α} (h : z ∈ dictValues key l) :
    z ∈ l := by
  rcases dictFold_mem key l [] z h with h1 | h1
  · exact absurd h1 (List.not_mem_nil z)
  · exact h1

theorem dictFold_exists_key :
    ∀ (l acc : List α) (k : Nat),
      ((∃ y ∈ acc, key y = k) ∨ ∃ y ∈ l, key y = k) →
      ∃ z ∈ l.foldl (dictInsert key) acc, key z = k := by
  intro l
  induction l with
  | nil =>
    intro acc k h
    rcases h with h | ⟨y, hy, _⟩
    · exact h
    · exact absurd hy (List.not_mem_nil y)
  | cons x l ih =>
    intro acc k h
    rcases h with h | ⟨y, hy, hky⟩
    · exact ih (dictInsert key acc x) k (Or.inl (dictInsert_exists_key key (Or.inl h)))
    · rcases List.mem_cons.mp hy with h1 | h1
      · exact ih (dictInsert key acc x) k
          (Or.inl (dictInsert_exists_key key (Or.inr (h1 ▸ hky))))
      · exact ih (dictInsert key acc x) k (Or.inr ⟨y, h1, hky⟩)

theorem dictFold_last_wins :
    ∀ (l acc : List α) (k : Nat) (z : α), (∃ y ∈ l, key y = k) →
      z ∈ l.foldl (dictInsert key) acc → key z = k → z ∈ l := by
  intro l
  induction l with
  | nil =>
    intro acc k z hy _ _
    obtain ⟨y, hy', _⟩ := hy
    exact absurd hy' (List.not_mem_nil y)
  | cons x l ih =>
    intro acc k z hy hz hkz
    by_cases hl : ∃ y ∈ l, key y = k
    · exact List.mem_cons_of_mem x (ih (dictInsert key acc x) k z hl hz hkz)
    · have hkx : key x = k := by
        obtain ⟨y, hy', hky⟩ := hy
        rcases List.mem_cons.mp hy' with h1 | h1
        · exact h1 ▸ hky
        · exact absurd ⟨y, h1, hky⟩ hl
      rcases dictFold_mem key l (dictInsert key acc x) z hz with h1 | h1
      · have : z = x := dictInsert_eq_of_key key h1 (by rw [hkz, hkx])
        exact this ▸ List.mem_cons_self x l
      · exact absurd ⟨z, h1, hkz⟩ hl

theorem dictFold_keys_toFinset :
    ∀ (l acc : List α),
      ((l.foldl (dictInsert key) acc).map key).toFinset =
        (acc.map key).toFinset ∪ (l.map key).toFinset := by
  intro l
  induction l with
  | nil => intro acc; simp
  | cons x l ih =>
    intro acc
    have h := ih (dictInsert key acc x)
    rw [List.foldl_cons, h, dictInsert_map_key]
    by_cases hc : acc.any (fun y => key y == key x) = true
    · rw [if_pos hc]
      obtain ⟨y, hy, hky⟩ := List.any_eq_true.mp hc
      have hx : key x ∈ (acc.map key).toFinset := by
        rw [List.mem_toFinset]
        exact beq_iff_eq.mp hky ▸ List.mem_map_of_mem key hy
      ext a
      simp only [Finset.mem_union, List.mem_toFinset, List.map_cons,
        List.mem_cons]
      constructor
      · rintro (h1 | h1)
        · exact Or.inl h1
        · exact Or.inr (Or.inr h1)
      · rintro (h1 | h1 | h1)
        · exact Or.inl h1
        · exact Or.inl (h1 ▸ List.mem_toFinset.mp hx)
        · exact Or.inr h1
    · rw [if_neg hc]
      ext a
      simp only [Finset.mem_union, List.mem_toFinset, List.mem_append,
        List.mem_singleton, List.map_cons, List.mem_cons]
      tauto

theorem dictFold_keys_nodup :
    ∀ (l acc : List α), ((acc.map key).Nodup) →
      ((l.foldl (dictInsert key) acc).map key).Nodup := by
  intro l
  induction l with
  | nil => intro acc h; exact h
  | cons x l ih =>
    intro acc h
    refine ih (dictInsert key acc x) ?_
    rw [dictInsert_map_key]
    by_cases hc : acc.any (fun y => key y == key x) = true
    · rw [if_pos hc]; exact h
    · rw [if_neg hc]
      refine List.Nodup.append h (List.nodup_singleton _) ?_
      intro a ha hb
      rw [List.mem_singleton] at hb
      obtain ⟨y, hy, hky⟩ := List.mem_map.mp ha
      have : acc.any (fun y => key y == key x) = true :=
        List.any_eq_true.mpr ⟨y, hy, beq_iff_eq.mpr (hky.trans hb)⟩
      exact hc this

theorem dictValues_keys_toFinset (l : List α) :
    ((dictValues key l).map key).toFinset = (l.map key).toFinset := by
  have h := dictFold_keys_toFinset key l []
  simpa [dictValues] using h

theorem dictValues_length (l : List α) :
    (dictValues key l).length = (l.map key).toFinset.card := by
  have hnd : ((dictValues key l).map key).Nodup :=
    dictFold_keys_nodup key l [] (by simp)
  calc (dictValues key l).length
      = ((dictValues key l).map key).length := (List.length_map _ _).symm
    _ = ((dictValues key l).map key).toFinset.card :=
        (List.toFinset_card_of_nodup hnd).symm
    _ = (l.map key).toFinset.card := by rw [dictValues_keys_toFinset]

end DictLemmas


/-- An out-of-range depth makes every branch of `_traverse_graph` raise the
validation error when its response is constructed. -/
theorem traverse_graph_bad_depth (st : Store) (seed : Nat) (direction : String)
    (d : Int) (a : Option Nat) (now : Nat) (ets : Option (List String))
    (incl : Bool) (hbad : d < 1 ∨ 10 < d) :
    traverse_graph st seed direction d a now ets incl = .error .validation_error := by
  unfold traverse_graph
  by_cases h1 : (direction == "upstream") = true
  · rw [if_pos h1]
    exact traverseDir_bad_depth st seed true d a now ets incl hbad
  · rw [if_neg h1]
    by_cases h2 : (direction == "downstream") = true
    · rw [if_pos h2]
      exact traverseDir_bad_depth st seed false d a now ets incl hbad
    · rw [if_neg h2, traverseDir_bad_depth st seed true d a now ets incl hbad]

/-- Every node of a one-direction response is the hydration of a store node
that passed the soft-delete filter and whose id was collected from the seed
or an edge endpoint. -/
theorem traverseDir_nodes_origin (st : Store) (seed : Nat) (isUp : Bool)
    (d : Int) (a : Option Nat) (now : Nat) (ets : Option (List String))
    (incl : Bool) (r : LineageGraphResponse)
    (hok : traverseDir st seed isUp d a now ets incl = .ok r) :
    ∀ gn ∈ r.nodes, ∃ n ∈ st.nodes, gn = toGraphNode n ∧
      (incl = true ∨ n.deleted_at = none) ∧
      n.id ∈ nodeIds seed (edgesData st.edges seed isUp d (a.getD now) ets) := by
  have hval : 1 ≤ d ∧ d ≤ 10 := by
    by_contra hv
    have hbad : d < 1 ∨ 10 < d := by omega
    rw [traverseDir_bad_depth st seed isUp d a now ets incl hbad] at hok
    exact Except.noConfusion hok
  rw [traverseDir_ok st seed isUp d a now ets incl hval.1 hval.2] at hok
  obtain rfl : r = _ := (Except.ok.injEq _ _).mp hok.symm
  intro gn hgn
  obtain ⟨n, hn, rfl⟩ := List.mem_map.mp hgn
  obtain ⟨hn', hcond⟩ := List.mem_filter.mp hn
  rw [Bool.and_eq_true] at hcond
  refine ⟨n, hn', rfl, ?_, ?_⟩
  · rcases Bool.or_eq_true_iff.mp hcond.2 with h | h
    · exact Or.inl h
    · exact Or.inr (Option.isNone_iff_eq_none.mp h)
  · have h := hcond.1
    rwa [List.contains, List.elem_iff] at h

/-- Every node of any response of `_traverse_graph` originates, possibly via
the `both` merge, from a one-direction hydration. -/
theorem traverse_graph_nodes_origin (st : Store) (seed : Nat)
    (direction : String) (d : Int) (a : Option Nat) (now : Nat)
    (ets : Option (List String)) (incl : Bool) (r : LineageGraphResponse)
    (hok : traverse_graph st seed direction d a now ets incl = .ok r) :
    ∀ gn ∈ r.nodes, ∃ b : Bool, ∃ n ∈ st.nodes, gn = toGraphNode n ∧
      (incl = true ∨ n.deleted_at = none) ∧
      n.id ∈ nodeIds seed (edgesData st.edges seed b d (a.getD now) ets) ∧
      (direction = "upstream" → b = true) ∧
      (direction = "downstream" → b = false) := by
  by_cases hu : (direction == "upstream") = true
  · have hdir := beq_iff_eq.mp hu
    subst hdir
    rw [traverse_graph_upstream] at hok
    intro gn hgn
    obtain ⟨n, hn, h1, h2, h3⟩ := traverseDir_nodes_origin st seed true d a now ets incl r hok gn hgn
    exact ⟨true, n, hn, h1, h2, h3, fun _ => rfl, fun h => by simp at h⟩
  · by_cases hd : (direction == "downstream") = true
    · have hdir := beq_iff_eq.mp hd
      subst hdir
      rw [traverse_graph_downstream] at hok
      intro gn hgn
      obtain ⟨n, hn, h1, h2, h3⟩ := traverseDir_nodes_origin st seed false d a now ets incl r hok gn hgn
      exact ⟨false, n, hn, h1, h2, h3, fun h => by simp at h, fun _ => rfl⟩
    · have hu' := beq_eq_false_iff_ne.mp (Bool.not_eq_true _ ▸ hu : (direction == "upstream") = false)
      have hd' := beq_eq_false_iff_ne.mp (Bool.not_eq_true _ ▸ hd : (direction == "downstream") = false)
      have hval : 1 ≤ d ∧ d ≤ 10 := by
        by_contra hv
        have hbad : d < 1 ∨ 10 < d := by omega
        rw [traverse_graph_bad_depth st seed direction d a now ets incl hbad] at hok
        exact Except.noConfusion hok
      have hup := traverseDir_ok st seed true d a now ets incl hval.1 hval.2
      have hdn := traverseDir_ok st seed false d a now ets incl hval.1 hval.2
      rw [traverse_graph_else st seed direction d a now ets incl hu' hd',
        traverse_graph_both_ok st seed d a now ets incl _ _ hup hdn hval.1 hval.2] at hok
      obtain rfl : r = _ := (Except.ok.injEq _ _).mp hok.symm
      intro gn hgn
      have hmem := dictValues_mem (fun n : LineageGraphNode => n.id) hgn
      rcases List.mem_append.mp hmem with hside | hside
      · obtain ⟨n, hn, h1, h2, h3⟩ := traverseDir_nodes_origin st seed true d a now ets incl _ hup gn hside
        exact ⟨true, n, hn, h1, h2, h3, fun _ => rfl, fun h => absurd h hd'⟩
      · obtain ⟨n, hn, h1, h2, h3⟩ := traverseDir_nodes_origin st seed false d a now ets incl _ hdn gn hside
        exact ⟨false, n, hn, h1, h2, h3, fun h => absurd h hu', fun _ => rfl⟩


/-- C2: the depth recorded on every node of every traversal response is the
literal 0 of repository.py line 531 (`TODO: Add depth from CTE`), not the
BFS layer at which the node was first reached. -/
theorem C2_recorded_depth_always_zero (st : Store) (seed : Nat)
    (direction : String) (d : Int) (a : Option Nat) (now : Nat)
    (ets : Option (List String)) (incl : Bool) (r : LineageGraphResponse)
    (hok : traverse_graph st seed direction d a now ets incl = .ok r) :
    ∀ gn ∈ r.nodes, gn.depth = 0 := by
  intro gn hgn
  obtain ⟨b, n, _, hgn', _⟩ :=
    traverse_graph_nodes_origin st seed direction d a now ets incl r hok gn hgn
  rw [hgn']
  rfl

/-- C2 witness: in `exStore`, node 2 is first reached at BFS depth 1 from
seed 1, yet its recorded depth is 0. -/
theorem C2_recorded_depth_always_zero_witness :
    (toGraphNode (exNode 2)).depth = 0 ∧ (toGraphNode (exNode 2)).id = 2 :=
  ⟨C2_recorded_depth_always_zero exStore 1 "upstream" 3 (some 5) 5 none false
      (okOr (traverse_graph exStore 1 "upstream" 3 (some 5) 5 none false) emptyResponse)
      rfl (toGraphNode (exNode 2)) (by decide),
    rfl⟩

/-- C3 counterexample: seed 99 exists nowhere in `exStore`, yet the traversal
returns a normal, silently empty response instead of failing with a
NotFound condition. -/
theorem C3_counterexample_missing_seed_ok :
    ∃ r, traverse_graph exStore 99 "upstream" 3 none 0 none false = .ok r ∧
      r.nodes = [] ∧ r.edges = [] ∧ r.node_count = 0 ∧ r.edge_count = 0 :=
  ⟨okOr (traverse_graph exStore 99 "upstream" 3 none 0 none false) emptyResponse,
    rfl, by decide, by decide, by decide, by decide⟩

/-- C3 (amended): a traversal whose seed id matches no stored node does not
fail; it returns an ok response from which the seed is absent, so callers
cannot distinguish a missing node from an isolated one by error condition. -/
theorem C3_missing_seed_silent (st : Store) (seed : Nat) (direction : String)
    (d : Int) (a : Option Nat) (now : Nat) (ets : Option (List String))
    (incl : Bool) (hseed : ∀ n ∈ st.nodes, n.id ≠ seed)
    (h1 : 1 ≤ d) (h2 : d ≤ 10) :
    ∃ r, traverse_graph st seed direction d a now ets incl = .ok r ∧
      ∀ gn ∈ r.nodes, gn.id ≠ seed := by
  have hok : ∃ r, traverse_graph st seed direction d a now ets incl = .ok r := by
    by_cases hu : (direction == "upstream") = true
    · rw [beq_iff_eq.mp hu, traverse_graph_upstream,
        traverseDir_ok st seed true d a now ets incl h1 h2]
      exact ⟨_, rfl⟩
    · by_cases hd : (direction == "downstream") = true
      · rw [beq_iff_eq.mp hd, traverse_graph_downstream,
          traverseDir_ok st seed false d a now ets incl h1 h2]
        exact ⟨_, rfl⟩
      · have hu' := beq_eq_false_iff_ne.mp (Bool.not_eq_true _ ▸ hu : (direction == "upstream") = false)
        have hd' := beq_eq_false_iff_ne.mp (Bool.not_eq_true _ ▸ hd : (direction == "downstream") = false)
        rw [traverse_graph_else st seed direction d a now ets incl hu' hd',
          traverse_graph_both_ok st seed d a now ets incl _ _
            (traverseDir_ok st seed true d a now ets incl h1 h2)
            (traverseDir_ok st seed false d a now ets incl h1 h2) h1 h2]
        exact ⟨_, rfl⟩
  obtain ⟨r, hr⟩ := hok
  refine ⟨r, hr, ?_⟩
  intro gn hgn
  obtain ⟨b, n, hn, hgn', _⟩ :=
    traverse_graph_nodes_origin st seed direction d a now ets incl r hr gn hgn
  rw [hgn']
  exact hseed n hn

/-- C3 witness at a concrete missing seed. -/
theorem C3_missing_seed_silent_witness :
    ∃ r, traverse_graph exStore 99 "both" 3 none 0 none false = .ok r ∧
      ∀ gn ∈ r.nodes, gn.id ≠ 99 :=
  C3_missing_seed_silent exStore 99 "both" 3 none 0 none false
    (by decide) (by decide) (by decide)

/-- C7 counterexample: the direction string `"sideways"` is outside
`{upstream, downstream, both}`, yet the call does not fail with an
InvalidArgument condition: it silently succeeds (as a `both` traversal). -/
theorem C7_counterexample_invalid_direction_ok :
    ∃ r, traverse_graph exStore 1 "sideways" 3 none 0 none false = .ok r :=
  ⟨okOr (traverse_graph exStore 1 "sideways" 3 none 0 none false) emptyResponse, rfl⟩

/-- C7 (amended): `_traverse_graph` performs no fail-fast argument check: a
direction outside the three literals is silently treated as `"both"`, and a
depth outside `[1, 10]` surfaces only as the pydantic validation error
raised when the response object is constructed (after the graph queries),
for every direction. -/
theorem C7_validation_not_fail_fast (st : Store) (seed : Nat)
    (direction : String) (d : Int) (a : Option Nat) (now : Nat)
    (ets : Option (List String)) (incl : Bool) :
    ((direction ≠ "upstream" ∧ direction ≠ "downstream") →
        traverse_graph st seed direction d a now ets incl
          = traverse_graph st seed "both" d a now ets incl) ∧
    ((d < 1 ∨ 10 < d) →
        traverse_graph st seed direction d a now ets incl
          = .error .validation_error) := by
  constructor
  · intro h
    exact traverse_graph_else st seed direction d a now ets incl h.1 h.2
  · intro h
    exact traverse_graph_bad_depth st seed direction d a now ets incl h


/-- C9: `invalidate_edge` on an unknown id returns `False` and leaves the
store untouched; on a known id it returns `True` and rewrites only that
edge's `valid_to`, preserving every other field of every edge, the node
table, and the edge order; and `create_edge` only appends. -/
theorem C9_invalidate_edge_frame (st : Store) (eid : Nat) (vto : Option Nat)
    (now : Nat) :
    (get_edge st eid = none → invalidate_edge st eid vto now = (st, false)) ∧
    ((∃ e, get_edge st eid = some e) →
      (invalidate_edge st eid vto now).2 = true ∧
      (invalidate_edge st eid vto now).1.nodes = st.nodes ∧
      (invalidate_edge st eid vto now).1.edges.length = st.edges.length ∧
      ∀ p ∈ st.edges.zip (invalidate_edge st eid vto now).1.edges,
        p.2.id = p.1.id ∧ p.2.source_id = p.1.source_id ∧
        p.2.target_id = p.1.target_id ∧ p.2.edge_type = p.1.edge_type ∧
        p.2.metadata = p.1.metadata ∧ p.2.valid_from = p.1.valid_from ∧
        p.2.created_at = p.1.created_at ∧ p.2.created_by = p.1.created_by ∧
        (p.1.id ≠ eid → p.2 = p.1) ∧
        (p.1.id = eid → p.2.valid_to = some (vto.getD now))) ∧
    (∀ e, (create_edge st e).edges = st.edges ++ [e] ∧
      (create_edge st e).nodes = st.nodes) := by
  refine ⟨?_, ?_, fun e => ⟨rfl, rfl⟩⟩
  · intro h
    unfold invalidate_edge
    rw [h]
  · rintro ⟨e0, he0⟩
    have hinv : invalidate_edge st eid vto now =
        ({ st with
            edges := st.edges.map (fun e =>
              if e.id == eid then { e with valid_to := some (vto.getD now) }
              else e) },
          true) := by
      unfold invalidate_edge
      rw [he0]
    rw [hinv]
    refine ⟨rfl, rfl, by simp, ?_⟩
    intro p hp
    have hzip : st.edges.zip (st.edges.map (fun e =>
        if e.id == eid then { e with valid_to := some (vto.getD now) } else e)) =
        st.edges.map (fun e =>
          (e, if e.id == eid then { e with valid_to := some (vto.getD now) } else e)) := by
      have h := List.zip_map' (fun e : LineageEdge => e)
        (fun e => if e.id == eid then { e with valid_to := some (vto.getD now) } else e)
        st.edges
      simpa using h
    rw [hzip] at hp
    obtain ⟨e, he, rfl⟩ := List.mem_map.mp hp
    by_cases hc : (e.id == eid) = true
    · rw [if_pos hc]
      exact ⟨rfl, rfl, rfl, rfl, rfl, rfl, rfl, rfl,
        fun h => absurd (beq_iff_eq.mp hc) h, fun _ => rfl⟩
    · rw [if_neg hc]
      exact ⟨rfl, rfl, rfl, rfl, rfl, rfl, rfl, rfl, fun _ => rfl,
        fun h => absurd (beq_iff_eq.mpr h) hc⟩

/-- The edge set of a one-direction response does not depend on
`include_deleted`: the flag filters nodes only. -/
theorem traverseDir_edges_indep (st : Store) (seed : Nat) (isUp : Bool)
    (d : Int) (a : Option Nat) (now : Nat) (ets : Option (List String))
    (i1 i2 : Bool) :
    (traverseDir st seed isUp d a now ets i1).map (fun r => r.edges)
      = (traverseDir st seed isUp d a now ets i2).map (fun r => r.edges) := by
  by_cases hval : 1 ≤ d ∧ d ≤ 10
  · rw [traverseDir_ok st seed isUp d a now ets i1 hval.1 hval.2,
      traverseDir_ok st seed isUp d a now ets i2 hval.1 hval.2]
    rfl
  · have hbad : d < 1 ∨ 10 < d := by omega
    rw [traverseDir_bad_depth st seed isUp d a now ets i1 hbad,
      traverseDir_bad_depth st seed isUp d a now ets i2 hbad]

/-- The edge set of any `_traverse_graph` response does not depend on
`include_deleted`. -/
theorem traverse_graph_edges_indep (st : Store) (seed : Nat)
    (direction : String) (d : Int) (a : Option Nat) (now : Nat)
    (ets : Option (List String)) (i1 i2 : Bool) :
    (traverse_graph st seed direction d a now ets i1).map (fun r => r.edges)
      = (traverse_graph st seed direction d a now ets i2).map (fun r => r.edges) := by
  by_cases hval : 1 ≤ d ∧ d ≤ 10
  · by_cases hu : (direction == "upstream") = true
    · rw [beq_iff_eq.mp hu, traverse_graph_upstream, traverse_graph_upstream]
      exact traverseDir_edges_indep st seed true d a now ets i1 i2
    · by_cases hd : (direction == "downstream") = true
      · rw [beq_iff_eq.mp hd, traverse_graph_downstream, traverse_graph_downstream]
        exact traverseDir_edges_indep st seed false d a now ets i1 i2
      · have hu' := beq_eq_false_iff_ne.mp (Bool.not_eq_true _ ▸ hu : (direction == "upstream") = false)
        have hd' := beq_eq_false_iff_ne.mp (Bool.not_eq_true _ ▸ hd : (direction == "downstream") = false)
        rw [traverse_graph_else st seed direction d a now ets i1 hu' hd',
          traverse_graph_else st seed direction d a now ets i2 hu' hd',
          traverse_graph_both_ok st seed d a now ets i1 _ _
            (traverseDir_ok st seed true d a now ets i1 hval.1 hval.2)
            (traverseDir_ok st seed false d a now ets i1 hval.1 hval.2) hval.1 hval.2,
          traverse_graph_both_ok st seed d a now ets i2 _ _
            (traverseDir_ok st seed true d a now ets i2 hval.1 hval.2)
            (traverseDir_ok st seed false d a now ets i2 hval.1 hval.2) hval.1 hval.2]
        rfl
  · have hbad : d < 1 ∨ 10 < d := by omega
    rw [traverse_graph_bad_depth st seed direction d a now ets i1 hbad,
      traverse_graph_bad_depth st seed direction d a now ets i2 hbad]

/-- C5: with `include_deleted` unset, every returned node hydrates a stored
node that is not soft-deleted, while the returned edge list is exactly what
it would be with `include_deleted` set — an edge is never dropped because a
soft-deleted endpoint was filtered out of the node list. -/
theorem C5_soft_delete_filters_nodes_not_edges (st : Store) (seed : Nat)
    (direction : String) (d : Int) (a : Option Nat) (now : Nat)
    (ets : Option (List String)) :
    ((traverse_graph st seed direction d a now ets false).map (fun r => r.edges)
        = (traverse_graph st seed direction d a now ets true).map (fun r => r.edges)) ∧
    ∀ r, traverse_graph st seed direction d a now ets false = .ok r →
      ∀ gn ∈ r.nodes, ∃ n ∈ st.nodes, n.deleted_at = none ∧ gn = toGraphNode n := by
  constructor
  · exact traverse_graph_edges_indep st seed direction d a now ets false true
  · intro r hr gn hgn
    obtain ⟨b, n, hn, hgn', hdel, _⟩ :=
      traverse_graph_nodes_origin st seed direction d a now ets false r hr gn hgn
    rcases hdel with h | h
    · exact absurd h (by simp)
    · exact ⟨n, hn, h, hgn'⟩


/-- The seed node, when stored and visible under the soft-delete flag, is
always hydrated: its id heads the `node_ids` list. -/
theorem traverseDir_seed_mem (st : Store) (seed : Nat) (isUp : Bool) (d : Int)
    (a : Option Nat) (now : Nat) (ets : Option (List String)) (incl : Bool)
    (h1 : 1 ≤ d) (h2 : d ≤ 10) (n0 : LineageNode) (hn0 : n0 ∈ st.nodes)
    (hid : n0.id = seed) (hvis : incl = true ∨ n0.deleted_at = none) :
    ∃ r, traverseDir st seed isUp d a now ets incl = .ok r ∧
      toGraphNode n0 ∈ r.nodes := by
  rw [traverseDir_ok st seed isUp d a now ets incl h1 h2]
  refine ⟨_, rfl, ?_⟩
  refine List.mem_map_of_mem toGraphNode ?_
  rw [hydratedNodes, List.mem_filter]
  refine ⟨hn0, ?_⟩
  rw [Bool.and_eq_true]
  constructor
  · rw [List.contains, List.elem_iff]
    rw [nodeIds, hid]
    exact List.mem_cons_self seed _
  · rcases hvis with h | h
    · rw [h, Bool.true_or]
    · rw [h]
      simp

/-- C6 counterexample: in `deletedSeedStore` the seed node (id 1) exists in
the store but is soft-deleted; with `include_deleted` unset the returned
node list does not contain it. -/
theorem C6_counterexample_deleted_seed_absent :
    ∃ r, traverse_graph deletedSeedStore 1 "upstream" 3 (some 5) 5 none false = .ok r ∧
      (∀ gn ∈ r.nodes, gn.id ≠ 1) ∧ r.edges ≠ [] :=
  ⟨okOr (traverse_graph deletedSeedStore 1 "upstream" 3 (some 5) 5 none false)
      emptyResponse,
    rfl, by decide, by decide⟩

/-- C6 (amended): for every traversal with a valid depth whose seed node is
stored and either not soft-deleted or queried with `include_deleted`, the
seed node appears in the returned node list with recorded depth 0, even
with zero qualifying incident edges. -/
theorem C6_seed_present_with_depth_zero (st : Store) (seed : Nat)
    (direction : String) (d : Int) (a : Option Nat) (now : Nat)
    (ets : Option (List String)) (incl : Bool)
    (h1 : 1 ≤ d) (h2 : d ≤ 10) (n0 : LineageNode) (hn0 : n0 ∈ st.nodes)
    (hid : n0.id = seed) (hvis : incl = true ∨ n0.deleted_at = none) :
    ∃ r, traverse_graph st seed direction d a now ets incl = .ok r ∧
      ∃ gn ∈ r.nodes, gn.id = seed ∧ gn.depth = 0 := by
  by_cases hu : (direction == "upstream") = true
  · rw [beq_iff_eq.mp hu, traverse_graph_upstream]
    obtain ⟨r, hr, hmem⟩ :=
      traverseDir_seed_mem st seed true d a now ets incl h1 h2 n0 hn0 hid hvis
    exact ⟨r, hr, toGraphNode n0, hmem, hid, rfl⟩
  · by_cases hd : (direction == "downstream") = true
    · rw [beq_iff_eq.mp hd, traverse_graph_downstream]
      obtain ⟨r, hr, hmem⟩ :=
        traverseDir_seed_mem st seed false d a now ets incl h1 h2 n0 hn0 hid hvis
      exact ⟨r, hr, toGraphNode n0, hmem, hid, rfl⟩
    · have hu' := beq_eq_false_iff_ne.mp (Bool.not_eq_true _ ▸ hu : (direction == "upstream") = false)
      have hd' := beq_eq_false_iff_ne.mp (Bool.not_eq_true _ ▸ hd : (direction == "downstream") = false)
      have hup := traverseDir_ok st seed true d a now ets incl h1 h2
      have hdn := traverseDir_ok st seed false d a now ets incl h1 h2
      obtain ⟨ru, hru, hmemu⟩ :=
        traverseDir_seed_mem st seed true d a now ets incl h1 h2 n0 hn0 hid hvis
      have hboth := traverse_graph_both_ok st seed d a now ets incl _ _ hup hdn h1 h2
      rw [traverse_graph_else st seed direction d a now ets incl hu' hd', hboth]
      refine ⟨_, rfl, ?_⟩
      have hru' : ru = _ := (Except.ok.injEq _ _).mp (hru.symm.trans hup)
      obtain ⟨z, hz, hzk⟩ := dictFold_exists_key (fun n : LineageGraphNode => n.id)
        (_ ++ _) [] seed
        (Or.inr ⟨toGraphNode n0, List.mem_append.mpr (Or.inl (hru' ▸ hmemu)),
          hid⟩)
      refine ⟨z, hz, hzk, ?_⟩
      have hmem := dictValues_mem (fun n : LineageGraphNode => n.id) hz
      rcases List.mem_append.mp hmem with hside | hside
      · obtain ⟨n, _, hzn, _⟩ := traverseDir_nodes_origin st seed true d a now ets incl _ hup z hside
        rw [hzn]
        rfl
      · obtain ⟨n, _, hzn, _⟩ := traverseDir_nodes_origin st seed false d a now ets incl _ hdn z hside
        rw [hzn]
        rfl

/-- C6 witness: the live seed of `exStore` is returned with depth 0. -/
theorem C6_seed_present_with_depth_zero_witness :
    ∃ r, traverse_graph exStore 1 "both" 3 none 0 none false = .ok r ∧
      ∃ gn ∈ r.nodes, gn.id = 1 ∧ gn.depth = 0 :=
  C6_seed_present_with_depth_zero exStore 1 "both" 3 none 0 none false
    (by decide) (by decide) (exNode 1) (by decide) rfl (Or.inr rfl)


/-- C4: the `both` response is the id-keyed union of the independently-run
upstream and downstream responses, and its counts are the sizes of the
deduplicated merged sets. -/
theorem C4_both_is_union_of_directions (st : Store) (seed : Nat) (d : Int)
    (a : Option Nat) (now : Nat) (ets : Option (List String)) (incl : Bool)
    (ru rd rb : LineageGraphResponse)
    (hu : traverse_graph st seed "upstream" d a now ets incl = .ok ru)
    (hd : traverse_graph st seed "downstream" d a now ets incl = .ok rd)
    (hb : traverse_graph st seed "both" d a now ets incl = .ok rb) :
    (rb.nodes.map (fun n => n.id)).toFinset
        = (ru.nodes.map (fun n => n.id)).toFinset ∪ (rd.nodes.map (fun n => n.id)).toFinset ∧
    (rb.edges.map (fun e => e.id)).toFinset
        = (ru.edges.map (fun e => e.id)).toFinset ∪ (rd.edges.map (fun e => e.id)).toFinset ∧
    rb.node_count
        = ((ru.nodes.map (fun n => n.id)).toFinset ∪ (rd.nodes.map (fun n => n.id)).toFinset).card ∧
    rb.edge_count
        = ((ru.edges.map (fun e => e.id)).toFinset ∪ (rd.edges.map (fun e => e.id)).toFinset).card ∧
    (∀ z ∈ rb.nodes, z ∈ ru.nodes ∨ z ∈ rd.nodes) ∧
    (∀ z ∈ rb.edges, z ∈ ru.edges ∨ z ∈ rd.edges) := by
  rw [traverse_graph_upstream] at hu
  rw [traverse_graph_downstream] at hd
  have hval : 1 ≤ d ∧ d ≤ 10 := by
    by_contra hv
    have hbad : d < 1 ∨ 10 < d := by omega
    rw [traverseDir_bad_depth st seed true d a now ets incl hbad] at hu
    exact Except.noConfusion hu
  rw [traverse_graph_both_ok st seed d a now ets incl ru rd hu hd hval.1 hval.2] at hb
  have hrb : rb = _ := ((Except.ok.injEq _ _).mp hb).symm
  have hnodes : rb.nodes = dictValues (fun n : LineageGraphNode => n.id) (ru.nodes ++ rd.nodes) := by
    rw [hrb]
  have hedges : rb.edges = dictValues (fun e : LineageGraphEdge => e.id) (ru.edges ++ rd.edges) := by
    rw [hrb]
  have hnc : rb.node_count
      = (dictValues (fun n : LineageGraphNode => n.id) (ru.nodes ++ rd.nodes)).length := by
    rw [hrb]
  have hec : rb.edge_count
      = (dictValues (fun e : LineageGraphEdge => e.id) (ru.edges ++ rd.edges)).length := by
    rw [hrb]
  refine ⟨?_, ?_, ?_, ?_, ?_, ?_⟩
  · rw [hnodes, dictValues_keys_toFinset, List.map_append, List.toFinset_append]
  · rw [hedges, dictValues_keys_toFinset, List.map_append, List.toFinset_append]
  · rw [hnc, dictValues_length, List.map_append, List.toFinset_append]
  · rw [hec, dictValues_length, List.map_append, List.toFinset_append]
  · intro z hz
    rw [hnodes] at hz
    exact List.mem_append.mp (dictValues_mem (fun n : LineageGraphNode => n.id) hz)
  · intro z hz
    rw [hedges] at hz
    exact List.mem_append.mp (dictValues_mem (fun e : LineageGraphEdge => e.id) hz)

/-- C4 witness on the self-loop store. -/
theorem C4_both_is_union_of_directions_witness :
    (okOr (traverse_graph loopStore 1 "both" 3 none 0 none false) emptyResponse).node_count
      = (((okOr (traverse_graph loopStore 1 "upstream" 3 none 0 none false) emptyResponse).nodes.map (fun n => n.id)).toFinset
          ∪ ((okOr (traverse_graph loopStore 1 "downstream" 3 none 0 none false) emptyResponse).nodes.map (fun n => n.id)).toFinset).card :=
  (C4_both_is_union_of_directions loopStore 1 3 none 0 none false
      (okOr (traverse_graph loopStore 1 "upstream" 3 none 0 none false) emptyResponse)
      (okOr (traverse_graph loopStore 1 "downstream" 3 none 0 none false) emptyResponse)
      (okOr (traverse_graph loopStore 1 "both" 3 none 0 none false) emptyResponse)
      rfl rfl rfl).2.2.1

/-- C10: the `both` merge is the deterministic Python-dict fold of upstream
entries followed by downstream entries, so an id discovered by both sides
keeps the downstream copy (inserted later, overwriting by id). -/
theorem C10_merge_downstream_wins (st : Store) (seed : Nat) (d : Int)
    (a : Option Nat) (now : Nat) (ets : Option (List String)) (incl : Bool)
    (ru rd rb : LineageGraphResponse)
    (hu : traverse_graph st seed "upstream" d a now ets incl = .ok ru)
    (hd : traverse_graph st seed "downstream" d a now ets incl = .ok rd)
    (hb : traverse_graph st seed "both" d a now ets incl = .ok rb) :
    rb.nodes = dictValues (fun n => n.id) (ru.nodes ++ rd.nodes) ∧
    rb.edges = dictValues (fun e => e.id) (ru.edges ++ rd.edges) ∧
    (∀ k, ∀ z, (∃ x ∈ ru.nodes, x.id = k) → (∃ y ∈ rd.nodes, y.id = k) →
      z ∈ rb.nodes → z.id = k → z ∈ rd.nodes) ∧
    (∀ k, ∀ z, (∃ x ∈ ru.edges, x.id = k) → (∃ y ∈ rd.edges, y.id = k) →
      z ∈ rb.edges → z.id = k → z ∈ rd.edges) := by
  rw [traverse_graph_upstream] at hu
  rw [traverse_graph_downstream] at hd
  have hval : 1 ≤ d ∧ d ≤ 10 := by
    by_contra hv
    have hbad : d < 1 ∨ 10 < d := by omega
    rw [traverseDir_bad_depth st seed true d a now ets incl hbad] at hu
    exact Except.noConfusion hu
  rw [traverse_graph_both_ok st seed d a now ets incl ru rd hu hd hval.1 hval.2] at hb
  have hrb : rb = _ := ((Except.ok.injEq _ _).mp hb).symm
  have hnodes : rb.nodes = dictValues (fun n : LineageGraphNode => n.id) (ru.nodes ++ rd.nodes) := by
    rw [hrb]
  have hedges : rb.edges = dictValues (fun e : LineageGraphEdge => e.id) (ru.edges ++ rd.edges) := by
    rw [hrb]
  refine ⟨hnodes, hedges, ?_, ?_⟩
  · intro k z _ hexd hz hzk
    rw [hnodes] at hz
    have hz' : z ∈ (ru.nodes ++ rd.nodes).foldl
        (dictInsert (fun n : LineageGraphNode => n.id)) [] := hz
    rw [List.foldl_append] at hz'
    exact dictFold_last_wins (fun n : LineageGraphNode => n.id) rd.nodes _ k z hexd hz' hzk
  · intro k z _ hexd hz hzk
    rw [hedges] at hz
    have hz' : z ∈ (ru.edges ++ rd.edges).foldl
        (dictInsert (fun e : LineageGraphEdge => e.id)) [] := hz
    rw [List.foldl_append] at hz'
    exact dictFold_last_wins (fun e : LineageGraphEdge => e.id) rd.edges _ k z hexd hz' hzk

/-- C10 witness on the self-loop store: node 1 is found by both sides and
the merged copy is (a) downstream copy. -/
theorem C10_merge_downstream_wins_witness :
    toGraphNode (exNode 1) ∈
      (okOr (traverse_graph loopStore 1 "downstream" 3 none 0 none false) emptyResponse).nodes :=
  (C10_merge_downstream_wins loopStore 1 3 none 0 none false
      (okOr (traverse_graph loopStore 1 "upstream" 3 none 0 none false) emptyResponse)
      (okOr (traverse_graph loopStore 1 "downstream" 3 none 0 none false) emptyResponse)
      (okOr (traverse_graph loopStore 1 "both" 3 none 0 none false) emptyResponse)
      rfl rfl rfl).2.2.1 1 (toGraphNode (exNode 1))
    ⟨toGraphNode (exNode 1), by decide, rfl⟩
    ⟨toGraphNode (exNode 1), by decide, rfl⟩
    (by decide) rfl


theorem upstreamBase_mem {edges : List LineageEdge} {node_id ts : Nat}
    {ets : Option (List String)} {r : CteRow}
    (h : r ∈ upstreamBase edges node_id ts ets) :
    ∃ e ∈ edges, e.target_id = node_id ∧ is_active e ts = true ∧
      edgeTypeCond ets e = true ∧
      r = { node_id := e.source_id, edge_id := e.id, source_id := e.source_id,
            target_id := e.target_id, edge_type := e.edge_type,
            metadata := e.metadata, depth := 1 } := by
  obtain ⟨e, he, heq⟩ := List.mem_map.mp h
  obtain ⟨he', hcond⟩ := List.mem_filter.mp he
  simp only [Bool.and_eq_true] at hcond
  obtain ⟨⟨⟨h1, h2⟩, h3⟩, h4⟩ := hcond
  refine ⟨e, he', beq_iff_eq.mp h1, ?_, h4, heq.symm⟩
  rw [← temporal_cond_is_active]
  rw [Bool.and_eq_true]
  exact ⟨h2, h3⟩

theorem downstreamBase_mem {edges : List LineageEdge} {node_id ts : Nat}
    {ets : Option (List String)} {r : CteRow}
    (h : r ∈ downstreamBase edges node_id ts ets) :
    ∃ e ∈ edges, e.source_id = node_id ∧ is_active e ts = true ∧
      edgeTypeCond ets e = true ∧
      r = { node_id := e.target_id, edge_id := e.id, source_id := e.source_id,
            target_id := e.target_id, edge_type := e.edge_type,
            metadata := e.metadata, depth := 1 } := by
  obtain ⟨e, he, heq⟩ := List.mem_map.mp h
  obtain ⟨he', hcond⟩ := List.mem_filter.mp he
  simp only [Bool.and_eq_true] at hcond
  obtain ⟨⟨⟨h1, h2⟩, h3⟩, h4⟩ := hcond
  refine ⟨e, he', beq_iff_eq.mp h1, ?_, h4, heq.symm⟩
  rw [← temporal_cond_is_active]
  rw [Bool.and_eq_true]
  exact ⟨h2, h3⟩

theorem upstreamStep_mem {edges : List LineageEdge} {d : Int} {ts : Nat}
    {ets : Option (List String)} {prev : List CteRow} {r' : CteRow}
    (h : r' ∈ upstreamStep edges d ts ets prev) :
    ∃ r ∈ prev, (r.depth : Int) < d ∧ ∃ e ∈ edges,
      e.target_id = r.node_id ∧ is_active e ts = true ∧
      edgeTypeCond ets e = true ∧
      r' = { node_id := e.source_id, edge_id := e.id, source_id := e.source_id,
             target_id := e.target_id, edge_type := e.edge_type,
             metadata := e.metadata, depth := r.depth + 1 } := by
  obtain ⟨r, hr, hmem⟩ := List.mem_flatMap.mp h
  by_cases hd : (r.depth : Int) < d
  · rw [if_pos hd] at hmem
    obtain ⟨e, he, heq⟩ := List.mem_map.mp hmem
    obtain ⟨he', hcond⟩ := List.mem_filter.mp he
    simp only [Bool.and_eq_true] at hcond
    obtain ⟨⟨⟨h1, h2⟩, h3⟩, h4⟩ := hcond
    refine ⟨r, hr, hd, e, he', beq_iff_eq.mp h1, ?_, h4, heq.symm⟩
    rw [← temporal_cond_is_active]
    rw [Bool.and_eq_true]
    exact ⟨h2, h3⟩
  · rw [if_neg hd] at hmem
    exact absurd hmem (List.not_mem_nil r')

theorem downstreamStep_mem {edges : List LineageEdge} {d : Int} {ts : Nat}
    {ets : Option (List String)} {prev : List CteRow} {r' : CteRow}
    (h : r' ∈ downstreamStep edges d ts ets prev) :
    ∃ r ∈ prev, (r.depth : Int) < d ∧ ∃ e ∈ edges,
      e.source_id = r.node_id ∧ is_active e ts = true ∧
      edgeTypeCond ets e = true ∧
      r' = { node_id := e.target_id, edge_id := e.id, source_id := e.source_id,
             target_id := e.target_id, edge_type := e.edge_type,
             metadata := e.metadata, depth := r.depth + 1 } := by
  obtain ⟨r, hr, hmem⟩ := List.mem_flatMap.mp h
  by_cases hd : (r.depth : Int) < d
  · rw [if_pos hd] at hmem
    obtain ⟨e, he, heq⟩ := List.mem_map.mp hmem
    obtain ⟨he', hcond⟩ := List.mem_filter.mp he
    simp only [Bool.and_eq_true] at hcond
    obtain ⟨⟨⟨h1, h2⟩, h3⟩, h4⟩ := hcond
    refine ⟨r, hr, hd, e, he', beq_iff_eq.mp h1, ?_, h4, heq.symm⟩
    rw [← temporal_cond_is_active]
    rw [Bool.and_eq_true]
    exact ⟨h2, h3⟩
  · rw [if_neg hd] at hmem
    exact absurd hmem (List.not_mem_nil r')

/-- Invariants propagate through the level-by-level CTE evaluation. -/
theorem cteAccum_ind {P : CteRow → Prop} (step : List CteRow → List CteRow)
    (hstep : ∀ cur, (∀ r ∈ cur, P r) → ∀ r ∈ step cur, P r) :
    ∀ (fuel : Nat) (cur : List CteRow), (∀ r ∈ cur, P r) →
      ∀ r ∈ cteAccum step cur fuel, P r := by
  intro fuel
  induction fuel with
  | zero => intro cur h r hr; exact h r hr
  | succ n ih =>
    intro cur h r hr
    rcases List.mem_append.mp hr with h1 | h1
    · exact h r h1
    · exact ih (step cur) (hstep cur h) r h1

/-- Every CTE row projects an edge of the store that is active at the query
timestamp and passes the type filter; its frontier node is the far end for
the direction. -/
theorem cteRows_origin (edges : List LineageEdge) (node_id : Nat) (b : Bool)
    (d : Int) (ts : Nat) (ets : Option (List String)) :
    ∀ r ∈ cteRows edges node_id b d ts ets,
      ∃ e ∈ edges, r.edge_id = e.id ∧ r.source_id = e.source_id ∧
        r.target_id = e.target_id ∧ r.edge_type = e.edge_type ∧
        r.metadata = e.metadata ∧ is_active e ts = true ∧
        edgeTypeCond ets e = true ∧
        r.node_id = (if b then e.source_id else e.target_id) := by
  cases b
  · refine cteAccum_ind _ ?_ _ _ ?_
    · intro cur _ r hr
      obtain ⟨r0, _, _, e, he, _, hact, hty, heq⟩ := downstreamStep_mem hr
      exact ⟨e, he, by rw [heq], by rw [heq], by rw [heq], by rw [heq],
        by rw [heq], hact, hty, by rw [heq]; rfl⟩
    · intro r hr
      obtain ⟨e, he, _, hact, hty, heq⟩ := downstreamBase_mem hr
      exact ⟨e, he, by rw [heq], by rw [heq], by rw [heq], by rw [heq],
        by rw [heq], hact, hty, by rw [heq]; rfl⟩
  · refine cteAccum_ind _ ?_ _ _ ?_
    · intro cur _ r hr
      obtain ⟨r0, _, _, e, he, _, hact, hty, heq⟩ := upstreamStep_mem hr
      exact ⟨e, he, by rw [heq], by rw [heq], by rw [heq], by rw [heq],
        by rw [heq], hact, hty, by rw [heq]; rfl⟩
    · intro r hr
      obtain ⟨e, he, _, hact, hty, heq⟩ := upstreamBase_mem hr
      exact ⟨e, he, by rw [heq], by rw [heq], by rw [heq], by rw [heq],
        by rw [heq], hact, hty, by rw [heq]; rfl⟩


/-- C1: an edge is included at an expansion step iff it is incident on the
frontier in the traversal direction, satisfies the spec's temporal predicate
`is_active` (`valid_from <= as_of` and (`valid_to` absent or
`valid_to > as_of`), the half-open interval `[valid_from, valid_to)`), and
passes the edge-type filter; the same predicate gates the base case and
every recursive hop, for both directions, so every edge row of a traversal
projects an active edge of the store. -/
theorem C1_temporal_predicate_every_hop (edges : List LineageEdge)
    (node_id ts : Nat) (ets : Option (List String)) (d : Int)
    (prev : List CteRow) (b : Bool) :
    upstreamBase edges node_id ts ets
        = (edges.filter (fun e =>
            e.target_id == node_id && is_active e ts && edgeTypeCond ets e)).map
          (fun e =>
            { node_id := e.source_id, edge_id := e.id, source_id := e.source_id,
              target_id := e.target_id, edge_type := e.edge_type,
              metadata := e.metadata, depth := 1 }) ∧
    downstreamBase edges node_id ts ets
        = (edges.filter (fun e =>
            e.source_id == node_id && is_active e ts && edgeTypeCond ets e)).map
          (fun e =>
            { node_id := e.target_id, edge_id := e.id, source_id := e.source_id,
              target_id := e.target_id, edge_type := e.edge_type,
              metadata := e.metadata, depth := 1 }) ∧
    upstreamStep edges d ts ets prev
        = prev.flatMap (fun r =>
            if (r.depth : Int) < d then
              (edges.filter (fun e =>
                e.target_id == r.node_id && is_active e ts && edgeTypeCond ets e)).map
                (fun e =>
                  { node_id := e.source_id, edge_id := e.id,
                    source_id := e.source_id, target_id := e.target_id,
                    edge_type := e.edge_type, metadata := e.metadata,
                    depth := r.depth + 1 })
            else []) ∧
    downstreamStep edges d ts ets prev
        = prev.flatMap (fun r =>
            if (r.depth : Int) < d then
              (edges.filter (fun e =>
                e.source_id == r.node_id && is_active e ts && edgeTypeCond ets e)).map
                (fun e =>
                  { node_id := e.target_id, edge_id := e.id,
                    source_id := e.source_id, target_id := e.target_id,
                    edge_type := e.edge_type, metadata := e.metadata,
                    depth := r.depth + 1 })
            else []) ∧
    (∀ r ∈ cteRows edges node_id b d ts ets, ∃ e ∈ edges,
      is_active e ts = true ∧ edgeTypeCond ets e = true ∧
      rowToGraphEdge r = { id := e.id, source_id := e.source_id,
                           target_id := e.target_id, edge_type := e.edge_type,
                           metadata := e.metadata }) := by
  have hfltT : ∀ (nid : Nat),
      edges.filter (fun e =>
        e.target_id == nid && decide (e.valid_from ≤ ts) &&
        (e.valid_to.isNone ||
          (match e.valid_to with
           | none => false
           | some t => decide (t > ts))) &&
        edgeTypeCond ets e)
      = edges.filter (fun e =>
          e.target_id == nid && is_active e ts && edgeTypeCond ets e) := by
    intro nid
    refine List.filter_congr ?_
    intro e _
    cases htv : e.valid_to <;> simp [is_active, htv, Bool.and_assoc]
  have hfltS : ∀ (nid : Nat),
      edges.filter (fun e =>
        e.source_id == nid && decide (e.valid_from ≤ ts) &&
        (e.valid_to.isNone ||
          (match e.valid_to with
           | none => false
           | some t => decide (t > ts))) &&
        edgeTypeCond ets e)
      = edges.filter (fun e =>
          e.source_id == nid && is_active e ts && edgeTypeCond ets e) := by
    intro nid
    refine List.filter_congr ?_
    intro e _
    cases htv : e.valid_to <;> simp [is_active, htv, Bool.and_assoc]
  refine ⟨?_, ?_, ?_, ?_, ?_⟩
  · unfold upstreamBase
    rw [hfltT node_id]
  · unfold downstreamBase
    rw [hfltS node_id]
  · unfold upstreamStep
    simp only [hfltT]
  · unfold downstreamStep
    simp only [hfltS]
  · intro r hr
    obtain ⟨e, he, h1, h2, h3, h4, h5, hact, hty, _⟩ :=
      cteRows_origin edges node_id b d ts ets r hr
    refine ⟨e, he, hact, hty, ?_⟩
    simp only [rowToGraphEdge, h1, h2, h3, h4, h5]


theorem ReachWithin.up_succ {edges : List LineageEdge} {b : Bool} {ts : Nat}
    {ets : Option (List String)} {seed k v : Nat}
    (h : ReachWithin edges b ts ets seed k v) :
    ReachWithin edges b ts ets seed (k + 1) v := by
  induction h with
  | seed_self k => exact ReachWithin.seed_self (k + 1)
  | step k u e _ he hact hty hnear ih =>
    exact ReachWithin.step (k + 1) u e ih he hact hty hnear

theorem ReachWithin.mono {edges : List LineageEdge} {b : Bool} {ts : Nat}
    {ets : Option (List String)} {seed k k' v : Nat} (hk : k ≤ k')
    (h : ReachWithin edges b ts ets seed k v) :
    ReachWithin edges b ts ets seed k' v := by
  induction k' with
  | zero =>
    have hz : k = 0 := Nat.le_zero.mp hk
    exact hz ▸ h
  | succ m ih =>
    by_cases hm : k ≤ m
    · exact (ih hm).up_succ
    · have : k = m + 1 := by omega
      exact this ▸ h

/-- Both endpoints and the frontier node of every CTE row are reachable
within the row's depth, and the row's depth never exceeds `max depth 1`. -/
theorem cteRows_reach (edges : List LineageEdge) (seed : Nat) (b : Bool)
    (d : Int) (ts : Nat) (ets : Option (List String)) :
    ∀ r ∈ cteRows edges seed b d ts ets,
      ReachWithin edges b ts ets seed r.depth r.node_id ∧
      ReachWithin edges b ts ets seed r.depth r.source_id ∧
      ReachWithin edges b ts ets seed r.depth r.target_id ∧
      (r.depth : Int) ≤ max d 1 := by
  cases b
  · refine cteAccum_ind _ ?_ _ _ ?_
    · intro cur hcur r hr
      obtain ⟨r0, hr0, hlt, e, he, hjoin, hact, hty, heq⟩ := downstreamStep_mem hr
      obtain ⟨hn0, _, _, _⟩ := hcur r0 hr0
      have hstep : ReachWithin edges false ts ets seed (r0.depth + 1) e.target_id := by
        have h := ReachWithin.step r0.depth r0.node_id e hn0 he hact hty
          (by rw [if_neg (by simp)]; exact hjoin)
        rw [if_neg (by simp)] at h
        exact h
      have hsrc : ReachWithin edges false ts ets seed (r0.depth + 1) e.source_id := by
        have h := hn0.up_succ
        rwa [← hjoin] at h
      refine ⟨?_, ?_, ?_, ?_⟩
      · rw [heq]; exact hstep
      · rw [heq]; exact hsrc
      · rw [heq]; exact hstep
      · rw [heq]
        have h1 : ((r0.depth + 1 : Nat) : Int) ≤ d := by
          push_cast
          omega
        exact le_trans h1 (le_max_left d 1)
    · intro r hr
      obtain ⟨e, he, hjoin, hact, hty, heq⟩ := downstreamBase_mem hr
      have h0 : ReachWithin edges false ts ets seed 0 seed :=
        ReachWithin.seed_self 0
      have hstep : ReachWithin edges false ts ets seed 1 e.target_id := by
        have h := ReachWithin.step 0 seed e h0 he hact hty
          (by rw [if_neg (by simp)]; exact hjoin)
        rw [if_neg (by simp)] at h
        exact h
      have hsrc : ReachWithin edges false ts ets seed 1 e.source_id := by
        rw [hjoin]
        exact ReachWithin.seed_self 1
      refine ⟨?_, ?_, ?_, ?_⟩
      · rw [heq]; exact hstep
      · rw [heq]; exact hsrc
      · rw [heq]; exact hstep
      · rw [heq]
        exact le_trans (by norm_num) (le_max_right d 1)
  · refine cteAccum_ind _ ?_ _ _ ?_
    · intro cur hcur r hr
      obtain ⟨r0, hr0, hlt, e, he, hjoin, hact, hty, heq⟩ := upstreamStep_mem hr
      obtain ⟨hn0, _, _, _⟩ := hcur r0 hr0
      have hstep : ReachWithin edges true ts ets seed (r0.depth + 1) e.source_id := by
        have h := ReachWithin.step r0.depth r0.node_id e hn0 he hact hty
          (by rw [if_pos rfl]; exact hjoin)
        rw [if_pos rfl] at h
        exact h
      have htgt : ReachWithin edges true ts ets seed (r0.depth + 1) e.target_id := by
        have h := hn0.up_succ
        rwa [← hjoin] at h
      refine ⟨?_, ?_, ?_, ?_⟩
      · rw [heq]; exact hstep
      · rw [heq]; exact hstep
      · rw [heq]; exact htgt
      · rw [heq]
        have h1 : ((r0.depth + 1 : Nat) : Int) ≤ d := by
          push_cast
          omega
        exact le_trans h1 (le_max_left d 1)
    · intro r hr
      obtain ⟨e, he, hjoin, hact, hty, heq⟩ := upstreamBase_mem hr
      have h0 : ReachWithin edges true ts ets seed 0 seed :=
        ReachWithin.seed_self 0
      have hstep : ReachWithin edges true ts ets seed 1 e.source_id := by
        have h := ReachWithin.step 0 seed e h0 he hact hty
          (by rw [if_pos rfl]; exact hjoin)
        rw [if_pos rfl] at h
        exact h
      have htgt : ReachWithin edges true ts ets seed 1 e.target_id := by
        rw [hjoin]
        exact ReachWithin.seed_self 1
      refine ⟨?_, ?_, ?_, ?_⟩
      · rw [heq]; exact hstep
      · rw [heq]; exact hstep
      · rw [heq]; exact htgt
      · rw [heq]
        exact le_trans (by norm_num) (le_max_right d 1)


theorem upstreamStep_eq_nil (edges : List LineageEdge) (d : Int) (ts : Nat)
    (ets : Option (List String)) (cur : List CteRow)
    (h : ∀ r ∈ cur, ¬ ((r.depth : Int) < d)) :
    upstreamStep edges d ts ets cur = [] := by
  rw [List.eq_nil_iff_forall_not_mem]
  intro r' hr'
  obtain ⟨r, hr, hlt, _⟩ := upstreamStep_mem hr'
  exact h r hr hlt

theorem downstreamStep_eq_nil (edges : List LineageEdge) (d : Int) (ts : Nat)
    (ets : Option (List String)) (cur : List CteRow)
    (h : ∀ r ∈ cur, ¬ ((r.depth : Int) < d)) :
    downstreamStep edges d ts ets cur = [] := by
  rw [List.eq_nil_iff_forall_not_mem]
  intro r' hr'
  obtain ⟨r, hr, hlt, _⟩ := downstreamStep_mem hr'
  exact h r hr hlt

theorem cteAccum_succ_eq (step : List CteRow → List CteRow) :
    ∀ (n : Nat) (cur : List CteRow),
      cteAccum step cur (n + 1) = cteAccum step cur n ++ step^[n + 1] cur := by
  intro n
  induction n with
  | zero =>
    intro cur
    show cur ++ cteAccum step (step cur) 0 = cur ++ step^[1] cur
    rw [Function.iterate_one]
    rfl
  | succ m ih =>
    intro cur
    show cur ++ cteAccum step (step cur) (m + 1)
        = cteAccum step cur (m + 1) ++ step^[m + 2] cur
    rw [ih (step cur), ← List.append_assoc]
    have h1 : cur ++ cteAccum step (step cur) m = cteAccum step cur (m + 1) := rfl
    rw [h1, ← Function.iterate_succ_apply]

theorem step_iterate_all_depth (step : List CteRow → List CteRow)
    (hstep : ∀ (cur : List CteRow) (m : Nat), (∀ r ∈ cur, r.depth = m) →
      ∀ r' ∈ step cur, r'.depth = m + 1) (base : List CteRow)
    (hbase : ∀ r ∈ base, r.depth = 1) :
    ∀ (k : Nat), ∀ r ∈ step^[k] base, r.depth = k + 1 := by
  intro k
  induction k with
  | zero => exact hbase
  | succ m ih =>
    intro r hr
    rw [Function.iterate_succ_apply'] at hr
    exact hstep (step^[m] base) (m + 1) ih r hr

theorem iterate_nil {step : List CteRow → List CteRow} (hnil : step [] = [])
    (k : Nat) : step^[k] [] = [] := by
  induction k with
  | zero => rfl
  | succ m ih => rw [Function.iterate_succ_apply, hnil, ih]

/-- Once every row of the working table has reached the depth bound, every
further CTE iteration is empty: the evaluation with fuel `d.toNat` is the
same fixed point the SQL engine computes, whatever extra fuel is added. -/
theorem cteAccum_fixed_generic (step : List CteRow → List CteRow)
    (base : List CteRow) (d : Int)
    (hibase : ∀ r ∈ base, r.depth = 1)
    (hstepdepth : ∀ (cur : List CteRow) (m : Nat), (∀ r ∈ cur, r.depth = m) →
      ∀ r' ∈ step cur, r'.depth = m + 1)
    (hstop : ∀ cur : List CteRow, (∀ r ∈ cur, ¬ ((r.depth : Int) < d)) →
      step cur = []) :
    ∀ (k : Nat), cteAccum step base (d.toNat + k) = cteAccum step base d.toNat := by
  intro k
  induction k with
  | zero => rfl
  | succ m ih =>
    have hnil : step [] = [] :=
      hstop [] (by intro r hr; exact absurd hr (List.not_mem_nil r))
    have h1 : step^[d.toNat + 1] base = [] := by
      rw [Function.iterate_succ_apply']
      refine hstop _ ?_
      intro r hr
      have hd := step_iterate_all_depth step hstepdepth base hibase d.toNat r hr
      intro hlt
      have hle : (d : Int) ≤ (d.toNat : Int) := Int.self_le_toNat d
      omega
    have hiter : step^[d.toNat + m + 1] base = [] := by
      have h2 : d.toNat + m + 1 = m + (d.toNat + 1) := by omega
      rw [h2, Function.iterate_add_apply, h1]
      exact iterate_nil hnil m
    have h3 : d.toNat + (m + 1) = (d.toNat + m) + 1 := rfl
    rw [h3, cteAccum_succ_eq step (d.toNat + m) base, hiter, List.append_nil, ih]

/-- The CTE fixed point is reached with fuel `d.toNat`: any additional fuel
leaves the row set unchanged, for either direction. This is the termination
of the bounded traversal, cycles or not. -/
theorem cteRowsFuel_fixed (edges : List LineageEdge) (seed : Nat) (b : Bool)
    (d : Int) (ts : Nat) (ets : Option (List String)) (k : Nat) :
    cteRowsFuel edges seed b d ts ets (d.toNat + k)
      = cteRows edges seed b d ts ets := by
  cases b
  · refine cteAccum_fixed_generic (downstreamStep edges d ts ets)
      (downstreamBase edges seed ts ets) d ?_ ?_ ?_ k
    · intro r hr
      obtain ⟨e, _, _, _, _, heq⟩ := downstreamBase_mem hr
      rw [heq]
    · intro cur m hcur r' hr'
      obtain ⟨r, hr, _, e, _, _, _, _, heq⟩ := downstreamStep_mem hr'
      rw [heq]
      show r.depth + 1 = m + 1
      rw [hcur r hr]
    · exact downstreamStep_eq_nil edges d ts ets
  · refine cteAccum_fixed_generic (upstreamStep edges d ts ets)
      (upstreamBase edges seed ts ets) d ?_ ?_ ?_ k
    · intro r hr
      obtain ⟨e, _, _, _, _, heq⟩ := upstreamBase_mem hr
      rw [heq]
    · intro cur m hcur r' hr'
      obtain ⟨r, hr, _, e, _, _, _, _, heq⟩ := upstreamStep_mem hr'
      rw [heq]
      show r.depth + 1 = m + 1
      rw [hcur r hr]
    · exact upstreamStep_eq_nil edges d ts ets

/-- Everything `node_ids` collects is reachable within `d.toNat` hops. -/
theorem nodeIds_reach (edges : List LineageEdge) (seed : Nat) (b : Bool)
    (d : Int) (ts : Nat) (ets : Option (List String)) (h1 : 1 ≤ d) :
    ∀ v ∈ nodeIds seed (edgesData edges seed b d ts ets),
      ReachWithin edges b ts ets seed d.toNat v := by
  intro v hv
  rcases List.mem_cons.mp hv with h | h
  · exact h ▸ ReachWithin.seed_self d.toNat
  · obtain ⟨ge, hge, hv'⟩ := List.mem_flatMap.mp h
    rw [edgesData] at hge
    have hge' := List.mem_dedup.mp hge
    obtain ⟨row, hrow, hgeq⟩ := List.mem_map.mp hge'
    obtain ⟨_, hs, ht, hb⟩ := cteRows_reach edges seed b d ts ets row hrow
    have hmax : max d 1 = d := max_eq_left h1
    rw [hmax] at hb
    have hdep : row.depth ≤ d.toNat := by omega
    have hsrc : ge.source_id = row.source_id := by rw [← hgeq]; rfl
    have htgt : ge.target_id = row.target_id := by rw [← hgeq]; rfl
    rcases List.mem_cons.mp hv' with h2 | h2
    · rw [h2, hsrc]
      exact hs.mono hdep
    · rw [List.mem_singleton.mp h2, htgt]
      exact ht.mono hdep


/-- C8: the bounded traversal terminates on every finite graph — the CTE
evaluation reaches its fixed point after `d.toNat` iterations, self-loops
and cycles included — and every node of a successful response is reachable
from the seed within `d` hops along edges satisfying the temporal predicate
and the edge-type filter, walked in the traversal direction (either
direction for the merged `both` result). -/
theorem C8_termination_and_bounded_reach (st : Store) (seed : Nat)
    (direction : String) (d : Int) (a : Option Nat) (now : Nat)
    (ets : Option (List String)) (incl : Bool) (r : LineageGraphResponse)
    (hok : traverse_graph st seed direction d a now ets incl = .ok r) :
    (∀ (k : Nat) (b : Bool),
        cteRowsFuel st.edges seed b d (a.getD now) ets (d.toNat + k)
          = cteRows st.edges seed b d (a.getD now) ets) ∧
    ∀ gn ∈ r.nodes,
      (direction = "upstream" →
        ReachWithin st.edges true (a.getD now) ets seed d.toNat gn.id) ∧
      (direction = "downstream" →
        ReachWithin st.edges false (a.getD now) ets seed d.toNat gn.id) ∧
      (direction ≠ "upstream" → direction ≠ "downstream" →
        (ReachWithin st.edges true (a.getD now) ets seed d.toNat gn.id ∨
         ReachWithin st.edges false (a.getD now) ets seed d.toNat gn.id)) := by
  have hval : 1 ≤ d ∧ d ≤ 10 := by
    by_contra hv
    have hbad : d < 1 ∨ 10 < d := by omega
    rw [traverse_graph_bad_depth st seed direction d a now ets incl hbad] at hok
    exact Except.noConfusion hok
  refine ⟨fun k b => cteRowsFuel_fixed st.edges seed b d (a.getD now) ets k, ?_⟩
  intro gn hgn
  obtain ⟨b, n, hn, hgnn, _, hmem, hbu, hbd⟩ :=
    traverse_graph_nodes_origin st seed direction d a now ets incl r hok gn hgn
  have hid : gn.id = n.id := by rw [hgnn]; rfl
  have hreach : ReachWithin st.edges b (a.getD now) ets seed d.toNat gn.id := by
    rw [hid]
    exact nodeIds_reach st.edges seed b d (a.getD now) ets hval.1 n.id hmem
  refine ⟨?_, ?_, ?_⟩
  · intro hdir
    rw [← hbu hdir]
    exact hreach
  · intro hdir
    rw [← hbd hdir]
    exact hreach
  · intro _ _
    cases b
    · exact Or.inr hreach
    · exact Or.inl hreach

/-- C8 witness on the chain of `exStore`: node 2 feeds node 1, so it is
upstream-reachable from seed 1 within 3 hops and appears in the traversal. -/
theorem C8_termination_and_bounded_reach_witness :
    ReachWithin exStore.edges true 5 none 1 3 2 :=
  ((C8_termination_and_bounded_reach exStore 1 "upstream" 3 (some 5) 5 none false
      (okOr (traverse_graph exStore 1 "upstream" 3 (some 5) 5 none false) emptyResponse)
      rfl).2 (toGraphNode (exNode 2)) (by decide)).1 rfl

end ProjectLens
